import Mathlib

/-!
Verification development for DiscordVault: a chunked encrypted object store
that splits files into fixed-size chunks, encrypts each chunk, stores the
ciphertexts as attachments in a remote messaging backend, and records chunk
order and remote identifiers in a local SQLite metadata store.

Embedded components (shallow embedding, from the Go sources):
  - the cipher (internal/crypto, not present in the source tree:
    modelled from the spec, see `Encrypt` / `Decrypt`);
  - the chunking loop of the web upload handler (internal/server/server.go);
  - the metadata store operations (internal/database/database.go);
  - the remote backend as an append-only message map;
  - the web upload / download / delete handlers and the bot upload handler;
  - the bounded-concurrency delete phase as an explicit step relation.

Bytes are natural numbers below 256; buffers are lists of bytes.
Opaque identifiers (SQLite row ids, Discord message ids) are modelled as
naturals handed out by monotonic counters.
-/

/-- Byte buffers are lists of naturals; a well-formed byte is below 256. -/
abbrev Bytes := List Nat

/-- Every entry of the buffer is a byte value (below 256). -/
def isBytes (l : Bytes) : Prop := ∀ b ∈ l, b < 256

instance (l : Bytes) : Decidable (isBytes l) := by
  unfold isBytes; infer_instance

/-! ## Cipher

Modelled from the spec: the source tree does not contain `internal/crypto`;
the spec (§4.2) requires AES-256-GCM-style authenticated encryption:
`Encrypt(plaintext, key)` binds a fresh random nonce to the ciphertext and
authenticates it so that any single-byte corruption is detected;
`Decrypt(ciphertext, key)` fails (never returning partial data) if the
ciphertext was corrupted.  The model externalizes the random nonce as an
explicit argument, uses a keystream xor for the body (an idealization of
CTR-mode confidentiality, which preserves the round-trip algebra), and a
position-weighted polynomial checksum over Z/257 of key, nonce and body as
the authentication tag (an idealization of GHASH that provably detects
every single-byte change).  Ciphertext layout: 12-byte nonce, body of the
plaintext's length, 2-byte tag. -/
/-- Keystream byte at position `i`, derived from key and nonce. -/
def keystream (key nonce : Bytes) (i : Nat) : Nat :=
  (key.getD (i % 32) 0) ^^^ (nonce.getD (i % 12) 0) ^^^ (i % 256)

/-- Xor a buffer against the keystream starting at position `i`;
applying it twice restores the buffer. -/
def xorStream (key nonce : Bytes) : Nat → Bytes → Bytes
  | _, [] => []
  | i, b :: bs => (b ^^^ keystream key nonce i) :: xorStream key nonce (i + 1) bs

/-- Position-weighted polynomial checksum over the field Z/257 (Horner form):
`polyZ [b0, b1, ...] = (b0+1) + 131*(b1+1) + 131^2*(b2+1) + ...`. -/
def polyZ : Bytes → ZMod 257
  | [] => 0
  | b :: bs => ((b : ZMod 257) + 1) + 131 * polyZ bs

/-- Serialize a tag value (below 257) as two bytes, little-endian. -/
def tagBytes (t : ZMod 257) : Bytes := [t.val % 256, t.val / 256]

/-- Authentication tag over key, nonce and ciphertext body. -/
def tagOf (key nonce body : Bytes) : Bytes := tagBytes (polyZ (key ++ nonce ++ body))

/-- Modelled from the spec (§4.2, `internal/crypto` missing from the source
tree): authenticated encryption of a buffer; the fresh random nonce is an
explicit argument.  Output: nonce (12 bytes) ++ keystream-xored body ++
2-byte authentication tag. -/
def Encrypt (nonce p key : Bytes) : Bytes :=
  let body := xorStream key nonce 0 p
  nonce ++ body ++ tagOf key nonce body

/-- Modelled from the spec (§4.2, `internal/crypto` missing from the source
tree): authenticated decryption; fails (returns `none`, never partial data)
when the ciphertext is too short or its authentication tag does not match. -/
def Decrypt (c key : Bytes) : Option Bytes :=
  if c.length < 14 then none
  else if (c.drop 12).drop ((c.drop 12).length - 2) =
      tagOf key (c.take 12) ((c.drop 12).take ((c.drop 12).length - 2)) then
    some (xorStream key (c.take 12) 0 ((c.drop 12).take ((c.drop 12).length - 2)))
  else none

instance : Fact (Nat.Prime 257) := ⟨by norm_num⟩

/-! ## Chunker

The web upload handler (internal/server/server.go, `handleUpload`, lines
126–164) reads the stream through `io.ReadFull` into a buffer of
`bot.ChunkSize` bytes: every full read yields a chunk of exactly `ChunkSize`
bytes, the final read at end of stream yields the remaining bytes (`1..C`),
and the loop appends nothing when a read returns `n = 0` at `io.EOF`, so an
empty stream yields no chunks.  That is exactly take/drop chunking.  The
loop is embedded with explicit fuel (an upper bound on the number of
iterations, instantiated with the stream length, which suffices because
every iteration with a positive chunk size consumes at least one byte). -/
/-- Fixed chunk size (internal/bot, `ChunkSize = 7 * 1024 * 1024`). -/
def ChunkSize : Nat := 7 * 1024 * 1024

/-- Chunking loop of `handleUpload` with explicit iteration fuel. -/
def chunkStreamFuel (C : Nat) : Nat → Bytes → List Bytes
  | _, [] => []
  | 0, _ :: _ => []
  | fuel + 1, b :: bs => (b :: bs).take C :: chunkStreamFuel C fuel ((b :: bs).drop C)

/-- Chunking loop of `handleUpload`: split a stream into `C`-byte chunks. -/
def chunkStream (C : Nat) (s : Bytes) : List Bytes := chunkStreamFuel C s.length s

/-! ## Metadata store (internal/database/database.go)

Two tables: `files (id AUTOINCREMENT, name UNIQUE, size, hash)` and
`chunks (id AUTOINCREMENT, file_id REFERENCES files ON DELETE CASCADE,
message_id, part_num)`.  `Initialize` sets `PRAGMA foreign_keys = ON`, so
`DELETE FROM files` cascades to `chunks`.  Row ids and Discord message ids
are modelled as naturals from monotonic counters; `created_at` is omitted
(no claim depends on it).  Statements are fault-free: an insert fails only
when it violates a constraint (the UNIQUE file name). -/
structure FileRow where
  id : Nat
  name : String
  size : Nat
  hash : Nat
deriving DecidableEq

structure ChunkRow where
  id : Nat
  fileId : Nat
  messageId : Nat
  partNum : Nat
deriving DecidableEq

structure DB where
  files : List FileRow
  chunks : List ChunkRow
  nextFileId : Nat
  nextChunkId : Nat
deriving DecidableEq

/-- Fresh store: both AUTOINCREMENT counters start at 1. -/
def DB.empty : DB := ⟨[], [], 1, 1⟩

/-- Database.SaveFile: `INSERT INTO files (name, size, hash) ... RETURNING
id`; the UNIQUE constraint on `name` makes the insert fail (returning an
error, modelled as `none`) when the name already exists. -/
def DB.saveFile (db : DB) (name : String) (size hash : Nat) : Option (Nat × DB) :=
  if db.files.any (fun f => f.name == name) then none
  else some (db.nextFileId,
    { db with
        files := db.files ++ [⟨db.nextFileId, name, size, hash⟩]
        nextFileId := db.nextFileId + 1 })

/-- Database.SaveChunk: `INSERT INTO chunks (file_id, message_id, part_num)`. -/
def DB.saveChunk (db : DB) (fid mid part : Nat) : DB :=
  { db with
      chunks := db.chunks ++ [⟨db.nextChunkId, fid, mid, part⟩]
      nextChunkId := db.nextChunkId + 1 }

/-- Database.GetFile: `SELECT ... FROM files WHERE id = ?`; no row is an
error (`sql.ErrNoRows`), modelled as `none`. -/
def DB.getFile (db : DB) (id : Nat) : Option FileRow :=
  db.files.find? (fun f => f.id == id)

/-- Insert a chunk row into a list sorted by ascending `partNum`. -/
def insertByPart (c : ChunkRow) : List ChunkRow → List ChunkRow
  | [] => [c]
  | d :: ds => if c.partNum ≤ d.partNum then c :: d :: ds else d :: insertByPart c ds

/-- Sort chunk rows by ascending `partNum` (insertion sort; the embedding
of SQLite's `ORDER BY part_num ASC`, whose order among equal keys is
unspecified). -/
def sortByPart : List ChunkRow → List ChunkRow
  | [] => []
  | c :: cs => insertByPart c (sortByPart cs)

/-- Database.GetChunks: `SELECT ... FROM chunks WHERE file_id = ? ORDER BY
part_num ASC`; an unknown file id yields an empty list and a nil error. -/
def DB.getChunks (db : DB) (fid : Nat) : List ChunkRow :=
  sortByPart (db.chunks.filter (fun c => c.fileId == fid))

/-- Database.DeleteFile: `DELETE FROM files WHERE id = ?`; cascades to the
file's chunk rows (foreign keys are ON).  Deleting an absent id succeeds. -/
def DB.deleteFile (db : DB) (id : Nat) : DB :=
  { db with
      files := db.files.filter (fun f => f.id != id)
      chunks := db.chunks.filter (fun c => c.fileId != id) }

/-! ## Remote backend (Discord, via the bot session)

An append-only map from message id to attachment content.  The `.vault`
label derived from the ciphertext digest names the attachment on Discord
but plays no role in retrieval (retrieval goes through the stored message
id), so it is not modelled. -/
structure Remote where
  msgs : List (Nat × Bytes)
  nextMsgId : Nat
deriving DecidableEq

/-- Fresh backend with no stored messages. -/
def Remote.empty : Remote := ⟨[], 1⟩

/-- Session.ChannelFileSend: store a blob, return the new message id. -/
def Remote.send (rem : Remote) (blob : Bytes) : Remote × Nat :=
  ({ msgs := rem.msgs ++ [(rem.nextMsgId, blob)], nextMsgId := rem.nextMsgId + 1 },
   rem.nextMsgId)

/-- Session.ChannelMessage plus the attachment-URL fetch of handleDownload,
collapsed into one lookup: the blob stored under a message id, or `none`
when the message is gone, has no attachment, or the HTTP fetch fails. -/
def Remote.fetch (rem : Remote) (mid : Nat) : Option Bytes :=
  (rem.msgs.find? (fun m => m.1 == mid)).map (fun m => m.2)

/-- Session.ChannelMessageDelete: remove a message; deleting an unknown id
is a no-op. -/
def Remote.del (rem : Remote) (mid : Nat) : Remote :=
  { rem with msgs := rem.msgs.filter (fun m => m.1 != mid) }

/-! ## Web handlers (internal/server/server.go) -/
/-- HTTP-visible outcome of a handler (the status actually written). -/
inductive HStatus where
  | okStatus
  | badRequest
  | notFound
  | serverError
deriving DecidableEq

structure UploadOut where
  status : HStatus
  fileId : Nat
  db : DB
  remote : Remote
deriving DecidableEq

/-- Per-chunk encrypt-and-send loop of handleUpload (lines 131–164): chunk
`i` is encrypted under the `i`-th fresh nonce and sent; message ids are
collected in order.  The ciphertext-digest label and the 800 ms pacing
sleep do not affect the stored data and are not modelled. -/
def sendAll (nonces : Nat → Bytes) (key : Bytes) :
    Nat → Remote → List Bytes → Remote × List Nat
  | _, rem, [] => (rem, [])
  | i, rem, b :: bs =>
    let r1 := Remote.send rem (Encrypt (nonces i) b key)
    let r2 := sendAll nonces key (i + 1) r1.1 bs
    (r2.1, r1.2 :: r2.2)

/-- Chunk-record insert loop of handleUpload (lines 176–178): one INSERT
per collected message id, partNum = index + 1.  The error returned by
SaveChunk is discarded by the caller. -/
def saveChunksAll (db : DB) (fid : Nat) : List Nat → Nat → DB
  | [], _ => db
  | m :: ms, k => saveChunksAll (db.saveChunk fid m k) fid ms (k + 1)

/-- Web upload handler (server.go, handleUpload, lines 107–184).  The
multipart "file" part is collapsed to its name and byte stream; fresh
per-chunk nonces and the digest function are explicit parameters.
Faithful quirks: an empty stream sends nothing and is rejected as
"Payload empty" (400); when SaveFile fails the handler skips the chunk
inserts but still falls through to `w.WriteHeader(http.StatusOK)`, so the
caller sees 200 with no metadata saved. -/
def handleUploadW (nonces : Nat → Bytes) (key : Bytes) (hashFn : Bytes → Nat)
    (db : DB) (rem : Remote) (filename : String) (stream : Bytes) : UploadOut :=
  let sent := sendAll nonces key 0 rem (chunkStream ChunkSize stream)
  if sent.2 = [] then ⟨.badRequest, 0, db, sent.1⟩
  else
    match db.saveFile filename stream.length (hashFn stream) with
    | none => ⟨.okStatus, 0, db, sent.1⟩
    | some (fid, db1) => ⟨.okStatus, fid, saveChunksAll db1 fid sent.2 1, sent.1⟩

inductive DlResult where
  | notFound
  | ok (data : Bytes)
deriving DecidableEq

/-- Per-chunk loop of handleDownload (lines 203–226): a chunk whose message
fetch fails or carries no attachment is logged and skipped (`continue`); a
chunk that fetches but fails decryption terminates the whole loop
(`return`), and nothing more is written after it. -/
def downloadLoop (fetch : Nat → Option Bytes) (key : Bytes) : List ChunkRow → Bytes
  | [] => []
  | c :: cs =>
    match fetch c.messageId with
    | none => downloadLoop fetch key cs
    | some blob =>
      match Decrypt blob key with
      | none => []
      | some p => p ++ downloadLoop fetch key cs

/-- Web download handler (server.go, handleDownload, lines 186–228):
unknown id → 404 "Object not found"; otherwise the chunk records are read
in partNum order and streamed through `downloadLoop`. -/
def handleDownloadW (key : Bytes) (db : DB) (fetch : Nat → Option Bytes)
    (id : Nat) : DlResult :=
  match db.getFile id with
  | none => .notFound
  | some _ => .ok (downloadLoop fetch key (db.getChunks id))

structure DeleteOut where
  status : HStatus
  db : DB
  remote : Remote
deriving DecidableEq

/-- Net backend effect of the parallel wipe loop of handleDelete (lines
83–95): every listed message id is deleted once; failures are discarded.
The concurrency of that loop is modelled separately by `WipeStep`. -/
def remDeleteAll (rem : Remote) : List Nat → Remote
  | [] => rem
  | m :: ms => remDeleteAll (rem.del m) ms

/-- Web delete handler (server.go, handleDelete, lines 71–105).  In a
fault-free store GetChunks returns a (possibly empty) list with a nil
error even for an unknown id, so the 404 branch is unreachable; the
handler wipes whatever chunks are listed, then deletes the file row
(DeleteFile succeeds also when no row matches) and answers 200. -/
def handleDeleteW (db : DB) (rem : Remote) (id : Nat) : DeleteOut :=
  let chunks := db.getChunks id
  let rem1 := remDeleteAll rem (chunks.map (fun c => c.messageId))
  ⟨.okStatus, db.deleteFile id, rem1⟩

structure BotUploadOut where
  success : Bool
  fileId : Nat
  db : DB
  remote : Remote
deriving DecidableEq

/-- Bot upload handler (bot.go, handleUpload, lines 384–437): the whole
attachment is fetched and read (`io.ReadAll`, error discarded), encrypted
as a single buffer and sent as one message; on SaveFile success exactly
one chunk row with partNum 1 is inserted.  The recorded size is the
attachment's reported `Size` field, not the number of bytes read. -/
def botHandleUpload (nonce key : Bytes) (hashFn : Bytes → Nat)
    (db : DB) (rem : Remote) (filename : String) (data : Bytes)
    (attachSize : Nat) : BotUploadOut :=
  let sent := Remote.send rem (Encrypt nonce data key)
  match db.saveFile filename attachSize (hashFn data) with
  | none => ⟨false, 0, db, sent.1⟩
  | some (fid, db1) => ⟨true, fid, db1.saveChunk fid sent.2 1, sent.1⟩

/-- Store states visited by the save phase of handleUpload (lines 173–180):
the state right after the SaveFile insert, then the state after each
successive SaveChunk insert.  Each INSERT is its own autocommit statement;
no transaction wraps the sequence, so every listed state is exposed to
concurrent readers of the shared connection. -/
def saveChunksStates (db : DB) (fid : Nat) : List Nat → Nat → List DB
  | [], _ => []
  | m :: ms, k =>
    let db1 := db.saveChunk fid m k
    db1 :: saveChunksStates db1 fid ms (k + 1)

/-- Trace of store states during handleUpload's save phase, given the
collected message ids. -/
def uploadSaveTrace (db : DB) (filename : String) (size hash : Nat)
    (mids : List Nat) : List DB :=
  match db.saveFile filename size hash with
  | none => [db]
  | some (fid, db1) => db1 :: saveChunksStates db1 fid mids 1

/-! ## Parallel wipe phase of handleDelete (server.go, lines 83–95)

One goroutine per chunk; each goroutine acquires one of the 8 semaphore
slots (`semaphore <- struct{}{}`), issues the remote delete (whose error is
discarded: `_ = ...ChannelMessageDelete(...)`), releases the slot and marks
its WaitGroup entry done.  The main flow spawns all goroutines, calls
`wg.Wait()`, and only then issues `DB.DeleteFile`.  The interleavings are
modelled as a step relation on an explicit state. -/
/-- Lifecycle of one delete goroutine: not yet spawned, spawned but not
holding a semaphore slot, holding a slot while the remote delete call runs,
or returned (slot released, WaitGroup entry done). -/
inductive TaskSt where
  | idle
  | started
  | inFlight
  | finished
deriving DecidableEq

/-- State of the wipe phase: one task per chunk (in chunk order), the
number of goroutines the main loop has spawned so far, and whether the
metadata deletion has been issued. -/
structure WipeState where
  tasks : List TaskSt
  spawned : Nat
  metaDeleted : Bool

/-- Number of tasks currently holding a semaphore slot. -/
def inFlightCount (s : WipeState) : Nat := s.tasks.count TaskSt.inFlight

/-- Interleaving steps of the wipe phase. -/
inductive WipeStep : WipeState → WipeState → Prop
  | spawn (s : WipeState) (h : s.spawned < s.tasks.length)
      (hidle : s.tasks.getD s.spawned TaskSt.idle = TaskSt.idle) :
      WipeStep s { tasks := s.tasks.set s.spawned TaskSt.started,
                   spawned := s.spawned + 1, metaDeleted := s.metaDeleted }
  | acquire (s : WipeState) (i : Nat) (h : i < s.tasks.length)
      (hst : s.tasks.getD i TaskSt.idle = TaskSt.started)
      (hsem : inFlightCount s < 8) :
      WipeStep s { s with tasks := s.tasks.set i TaskSt.inFlight }
  | finish (s : WipeState) (i : Nat) (h : i < s.tasks.length)
      (hst : s.tasks.getD i TaskSt.idle = TaskSt.inFlight) :
      WipeStep s { s with tasks := s.tasks.set i TaskSt.finished }
  | metaDelete (s : WipeState) (hall : s.spawned = s.tasks.length)
      (hdone : ∀ t ∈ s.tasks, t = TaskSt.finished) :
      WipeStep s { s with metaDeleted := true }

/-- Initial state of a wipe over `n` chunks. -/
def wipeInit (n : Nat) : WipeState :=
  { tasks := List.replicate n TaskSt.idle, spawned := 0, metaDeleted := false }

/-- States reachable from the start of the wipe phase. -/
inductive WipeReachable (n : Nat) : WipeState → Prop
  | init : WipeReachable n (wipeInit n)
  | step {s t : WipeState} : WipeReachable n s → WipeStep s t → WipeReachable n t

/-- Store that already holds a file named "a" (so a second `SaveFile`
with name "a" violates the UNIQUE constraint and fails). -/
def dbDup : DB := ⟨[⟨1, "a", 5, 0⟩], [], 2, 1⟩

/-- Abort condition of the download loop: the chunk's fetch succeeded but
its decryption failed. -/
def chunkDecryptFails (fetch : Nat → Option Bytes) (key : Bytes) (c : ChunkRow) : Bool :=
  match fetch c.messageId with
  | none => false
  | some blob => (Decrypt blob key).isNone

/-- Download output in the claim's words: chunks are processed in order up
to (not including) the first chunk that fetches but fails to decrypt;
among those, chunks whose fetch fails are skipped, and every successfully
fetched chunk contributes its decrypted bytes, in order. -/
def downloadSpec (fetch : Nat → Option Bytes) (key : Bytes) (cs : List ChunkRow) : Bytes :=
  ((cs.takeWhile (fun c => !chunkDecryptFails fetch key c)).filterMap
    (fun c => (fetch c.messageId).bind (fun blob => Decrypt blob key))).flatten

/-- Single-file store used to witness the download handler's behavior. -/
def dbOne : DB := ⟨[⟨1, "x", 0, 0⟩], [], 2, 1⟩

/-- Store sanity: the AUTOINCREMENT counter dominates every stored file id
and every chunk's owning file id (true of every store built by the
embedded operations from `DB.empty`). -/
def DB.WF (db : DB) : Prop :=
  (∀ f ∈ db.files, f.id < db.nextFileId) ∧ ∀ c ∈ db.chunks, c.fileId < db.nextFileId

instance (db : DB) : Decidable db.WF := by
  unfold DB.WF
  infer_instance

/-- Chunk rows created by the save loop of handleUpload: the row for the
`j`-th collected message id gets chunk-row id `cid + j`, message id
`mids_j` and part number `k + j`. -/
def mkRows (fid : Nat) : Nat → List Nat → Nat → List ChunkRow
  | _, [], _ => []
  | cid, m :: ms, k => ⟨cid, fid, m, k⟩ :: mkRows fid (cid + 1) ms (k + 1)

/-! ## Theorems -/

theorem xorStream_length (key nonce : Bytes) (i : Nat) (p : Bytes) :
    (xorStream key nonce i p).length = p.length := by
  induction p generalizing i with
  | nil => rfl
  | cons b bs ih => simp [xorStream, ih]

theorem xorStream_xorStream (key nonce : Bytes) (i : Nat) (p : Bytes) :
    xorStream key nonce i (xorStream key nonce i p) = p := by
  induction p generalizing i with
  | nil => rfl
  | cons b bs ih => simp [xorStream, Nat.xor_cancel_right, ih]

theorem getD_lt_of_isBytes (l : Bytes) (i : Nat) (hl : isBytes l) : l.getD i 0 < 256 := by
  induction l generalizing i with
  | nil => simp [List.getD_nil]
  | cons b bs ih =>
      cases i with
      | zero => simpa using hl b (by simp)
      | succ j => simpa using ih j (fun y hy => hl y (by simp [hy]))

theorem keystream_lt (key nonce : Bytes) (i : Nat)
    (hk : isBytes key) (hn : isBytes nonce) : keystream key nonce i < 256 := by
  have h256 : (256 : Nat) = 2 ^ 8 := by norm_num
  have hkb := getD_lt_of_isBytes key (i % 32) hk
  have hnb := getD_lt_of_isBytes nonce (i % 12) hn
  have hi : i % 256 < 256 := Nat.mod_lt _ (by norm_num)
  rw [keystream, h256]
  exact Nat.xor_lt_two_pow (Nat.xor_lt_two_pow (h256 ▸ hkb) (h256 ▸ hnb)) (h256 ▸ hi)

theorem xorStream_isBytes (key nonce : Bytes) (i : Nat) (p : Bytes)
    (hk : isBytes key) (hn : isBytes nonce) (hp : isBytes p) :
    isBytes (xorStream key nonce i p) := by
  induction p generalizing i with
  | nil => intro b hb; simp [xorStream] at hb
  | cons b bs ih =>
      intro x hx
      simp only [xorStream, List.mem_cons] at hx
      rcases hx with rfl | hx
      · have hb : b < 256 := hp b (by simp)
        have h256 : (256 : Nat) = 2 ^ 8 := by norm_num
        rw [h256]
        exact Nat.xor_lt_two_pow (h256 ▸ hb) (h256 ▸ keystream_lt key nonce i hk hn)
      · exact ih (i + 1) (fun y hy => hp y (by simp [hy])) x hx

theorem isBytes_append {a b : Bytes} (ha : isBytes a) (hb : isBytes b) :
    isBytes (a ++ b) := by
  intro x hx
  rcases List.mem_append.mp hx with h | h
  · exact ha x h
  · exact hb x h

theorem getD_set_self (l : Bytes) (k : Nat) (v : Nat) (hk : k < l.length) :
    (l.set k v).getD k 0 = v := by
  rw [List.getD_eq_getElem?_getD, List.getElem?_set_self hk]
  rfl

theorem set_ne_of_getD (l : Bytes) (k : Nat) (v : Nat) (hk : k < l.length)
    (hv : v ≠ l.getD k 0) : l.set k v ≠ l := by
  intro h
  apply hv
  rw [← getD_set_self l k v hk, h]

theorem polyZ_append (a b : Bytes) :
    polyZ (a ++ b) = polyZ a + 131 ^ a.length * polyZ b := by
  induction a with
  | nil => simp [polyZ]
  | cons x xs ih =>
      simp only [List.cons_append, polyZ, List.append_eq, ih, List.length_cons]
      ring

theorem natCast_zmod257_ne {a b : Nat} (ha : a < 256) (hb : b < 256) (hne : a ≠ b) :
    (a : ZMod 257) ≠ (b : ZMod 257) := by
  intro h
  apply hne
  have := congrArg ZMod.val h
  rwa [ZMod.val_cast_of_lt (by omega), ZMod.val_cast_of_lt (by omega)] at this

theorem polyZ_set_ne (m : Bytes) (j v : Nat) (hj : j < m.length)
    (hm : isBytes m) (hv : v < 256) (hne : v ≠ m.getD j 0) :
    polyZ (m.set j v) ≠ polyZ m := by
  induction m generalizing j with
  | nil => simp at hj
  | cons b bs ih =>
      cases j with
      | zero =>
          simp only [List.set_cons_zero, polyZ]
          intro h
          have hb : b < 256 := hm b (by simp)
          have hvb : (v : ZMod 257) ≠ (b : ZMod 257) :=
            natCast_zmod257_ne hv hb (by simpa using hne)
          apply hvb
          have := add_right_cancel h
          exact add_right_cancel this
      | succ k =>
          simp only [List.set_cons_succ, polyZ]
          intro h
          have htail : polyZ (bs.set k v) = polyZ bs := by
            have h131 : (131 : ZMod 257) ≠ 0 := by decide
            have := add_left_cancel h
            exact mul_left_cancel₀ h131 this
          exact ih k (by simpa using hj) (fun y hy => hm y (by simp [hy]))
            (by simpa using hne) htail

theorem tagBytes_inj {s t : ZMod 257} (h : tagBytes s = tagBytes t) : s = t := by
  simp only [tagBytes, List.cons.injEq, and_true] at h
  have hval : s.val = t.val := by
    have h1 : s.val % 256 = t.val % 256 := h.1
    have h2 : s.val / 256 = t.val / 256 := h.2
    omega
  exact ZMod.val_injective 257 hval

theorem Decrypt_Encrypt (nonce p key : Bytes) (hn : nonce.length = 12) :
    Decrypt (Encrypt nonce p key) key = some p := by
  have hb : (xorStream key nonce 0 p).length = p.length := xorStream_length key nonce 0 p
  have htg : (tagOf key nonce (xorStream key nonce 0 p)).length = 2 := by
    simp [tagOf, tagBytes]
  have hE : Encrypt nonce p key =
      nonce ++ (xorStream key nonce 0 p ++ tagOf key nonce (xorStream key nonce 0 p)) := by
    rw [Encrypt, List.append_assoc]
  have htake : (Encrypt nonce p key).take 12 = nonce := by
    rw [hE, ← hn, List.take_left]
  have hdrop : (Encrypt nonce p key).drop 12 =
      xorStream key nonce 0 p ++ tagOf key nonce (xorStream key nonce 0 p) := by
    rw [hE, ← hn, List.drop_left]
  have hlen : ¬ (Encrypt nonce p key).length < 14 := by
    rw [hE]
    simp only [List.length_append, hn, hb, htg]
    omega
  have hsub : (xorStream key nonce 0 p ++
      tagOf key nonce (xorStream key nonce 0 p)).length - 2 =
      (xorStream key nonce 0 p).length := by
    simp only [List.length_append, htg]
    omega
  rw [Decrypt, if_neg hlen, htake, hdrop, hsub, List.take_left, List.drop_left,
    if_pos rfl, xorStream_xorStream]

theorem Decrypt_flip (nonce p key : Bytes) (hn : nonce.length = 12)
    (hkB : isBytes key) (hnB : isBytes nonce) (hpB : isBytes p)
    (j v : Nat) (hj : j < (Encrypt nonce p key).length) (hv : v < 256)
    (hne : v ≠ (Encrypt nonce p key).getD j 0) :
    Decrypt ((Encrypt nonce p key).set j v) key = none := by
  set body := xorStream key nonce 0 p with hbody
  set tg := tagOf key nonce body with htgdef
  set m := nonce ++ body with hmdef
  have hc0 : Encrypt nonce p key = m ++ tg := rfl
  have hbB : isBytes body := xorStream_isBytes key nonce 0 p hkB hnB hpB
  have hmB : isBytes m := isBytes_append hnB hbB
  have hblen : body.length = p.length := xorStream_length key nonce 0 p
  have hmlen : m.length = 12 + p.length := by
    rw [hmdef, List.length_append, hn, hblen]
  have htg2 : tg.length = 2 := by
    rw [htgdef, tagOf, tagBytes]
    rfl
  have htgpoly : tg = tagBytes (polyZ (key ++ m)) := by
    rw [htgdef, tagOf, hmdef, List.append_assoc]
  rw [hc0] at hj hne ⊢
  have hjm : j < m.length + 2 := by
    rw [List.length_append, htg2] at hj
    exact hj
  by_cases hcase : j < m.length
  · -- the flipped byte is in the nonce or body region: the recomputed tag
    -- differs from the stored one
    rw [List.set_append_left j v hcase]
    have hslen : (m.set j v).length = m.length := List.length_set m j v
    have hnotshort : ¬ (m.set j v ++ tg).length < 14 := by
      rw [List.length_append, hslen, htg2, hmlen]
      omega
    have hz : 12 - (m.set j v).length = 0 := by omega
    have htake12 : (m.set j v ++ tg).take 12 = (m.set j v).take 12 := by
      rw [List.take_append_eq_append_take, hz, List.take_zero, List.append_nil]
    have hdrop12 : (m.set j v ++ tg).drop 12 = (m.set j v).drop 12 ++ tg := by
      rw [List.drop_append_eq_append_drop, hz, List.drop_zero]
    have hrestlen : ((m.set j v).drop 12 ++ tg).length - 2 = ((m.set j v).drop 12).length := by
      rw [List.length_append, htg2]
      omega
    have hne' : v ≠ m.getD j 0 := by
      rwa [List.getD_append m tg 0 j hcase] at hne
    have hpoly : polyZ (m.set j v) ≠ polyZ m := polyZ_set_ne m j v hcase hmB hv hne'
    have htagne : ¬ tg = tagOf key ((m.set j v).take 12) ((m.set j v).drop 12) := by
      intro h
      apply hpoly
      have hkey : key ++ (m.set j v).take 12 ++ (m.set j v).drop 12 = key ++ m.set j v := by
        rw [List.append_assoc, List.take_append_drop]
      rw [htgpoly, tagOf, hkey] at h
      have h3 := tagBytes_inj h
      rw [polyZ_append key m, polyZ_append key (m.set j v)] at h3
      have hA : (131 : ZMod 257) ^ key.length ≠ 0 := pow_ne_zero _ (by decide)
      exact (mul_left_cancel₀ hA (add_left_cancel h3)).symm
    rw [Decrypt, if_neg hnotshort, htake12, hdrop12, hrestlen, List.take_left,
      List.drop_left, if_neg htagne]
  · -- the flipped byte is in the stored tag: the stored tag no longer equals
    -- the recomputed one
    have hcase' : m.length ≤ j := le_of_not_lt hcase
    rw [List.set_append_right j v hcase']
    have hj' : j - m.length < 2 := by omega
    have htg2' : (tg.set (j - m.length) v).length = 2 := by
      rw [List.length_set, htg2]
    have hsplit : m ++ tg.set (j - m.length) v =
        nonce ++ (body ++ tg.set (j - m.length) v) := by
      rw [hmdef, List.append_assoc]
    rw [hsplit]
    have hnotshort : ¬ (nonce ++ (body ++ tg.set (j - m.length) v)).length < 14 := by
      rw [List.length_append, List.length_append, hn, hblen, htg2']
      omega
    have htake12 : (nonce ++ (body ++ tg.set (j - m.length) v)).take 12 = nonce := by
      rw [← hn]
      exact List.take_left _ _
    have hdrop12 : (nonce ++ (body ++ tg.set (j - m.length) v)).drop 12 =
        body ++ tg.set (j - m.length) v := by
      rw [← hn]
      exact List.drop_left _ _
    have hrestlen : (body ++ tg.set (j - m.length) v).length - 2 = body.length := by
      rw [List.length_append, htg2']
      omega
    have hne' : v ≠ tg.getD (j - m.length) 0 := by
      rwa [List.getD_append_right m tg 0 j hcase'] at hne
    have htgne : ¬ tg.set (j - m.length) v = tagOf key nonce body := by
      rw [← htgdef]
      exact set_ne_of_getD tg _ v (htg2 ▸ hj') hne'
    rw [Decrypt, if_neg hnotshort, htake12, hdrop12, hrestlen, List.take_left,
      List.drop_left, if_neg htgne]

theorem chunkStreamFuel_congr (C : Nat) (hC : 0 < C) :
    ∀ (f₁ : Nat) (t : Bytes) (f₂ : Nat), t.length ≤ f₁ → t.length ≤ f₂ →
      chunkStreamFuel C f₁ t = chunkStreamFuel C f₂ t := by
  intro f₁
  induction f₁ with
  | zero =>
      intro t f₂ h1 h2
      have ht : t = [] := List.length_eq_zero.mp (Nat.le_zero.mp h1)
      subst ht
      cases f₂ <;> rfl
  | succ f ih =>
      intro t f₂ h1 h2
      cases t with
      | nil => cases f₂ <;> rfl
      | cons b bs =>
          cases f₂ with
          | zero => simp at h2
          | succ g =>
              rw [chunkStreamFuel, chunkStreamFuel]
              congr 1
              apply ih
              · rw [List.length_drop]
                simp only [List.length_cons] at h1 ⊢
                omega
              · rw [List.length_drop]
                simp only [List.length_cons] at h2 ⊢
                omega

theorem chunkStream_nil (C : Nat) : chunkStream C [] = [] := rfl

theorem chunkStream_cons (C : Nat) (s : Bytes) (hs : s ≠ []) (hC : 0 < C) :
    chunkStream C s = s.take C :: chunkStream C (s.drop C) := by
  cases s with
  | nil => exact absurd rfl hs
  | cons b bs =>
      show chunkStreamFuel C (b :: bs).length (b :: bs) = _
      rw [List.length_cons, chunkStreamFuel]
      congr 1
      apply chunkStreamFuel_congr C hC
      · rw [List.length_drop]
        simp only [List.length_cons]
        omega
      · exact le_rfl

/-- Induction along the chunking loop: every stream is reached from the
empty stream through `C`-byte drops. -/
theorem chunkStream_induction (C : Nat) (hC : 0 < C) (motive : Bytes → Prop)
    (hnil : motive [])
    (hcons : ∀ s, s ≠ [] → motive (s.drop C) → motive s) :
    ∀ s, motive s := by
  have main : ∀ n s, s.length ≤ n → motive s := by
    intro n
    induction n with
    | zero =>
        intro s hs
        have h0 : s = [] := List.length_eq_zero.mp (Nat.le_zero.mp hs)
        rwa [h0]
    | succ n ih =>
        intro s hs
        by_cases h : s = []
        · rwa [h]
        · apply hcons s h
          apply ih
          have hlen : 0 < s.length := List.length_pos.mpr h
          rw [List.length_drop]
          omega
  exact fun s => main s.length s le_rfl

theorem chunkStream_eq_nil_iff (C : Nat) (hC : 0 < C) (s : Bytes) :
    chunkStream C s = [] ↔ s = [] := by
  constructor
  · intro h
    by_contra hs
    rw [chunkStream_cons C s hs hC] at h
    simp at h
  · intro h
    subst h
    exact chunkStream_nil C

theorem chunkStream_flatten (C : Nat) (hC : 0 < C) (s : Bytes) :
    (chunkStream C s).flatten = s := by
  induction s using chunkStream_induction C hC with
  | hnil =>
      rw [chunkStream_nil]
      rfl
  | hcons t h ih =>
      rw [chunkStream_cons C t h hC]
      simp [ih, List.take_append_drop]

theorem chunkStream_length (C : Nat) (hC : 0 < C) (s : Bytes) :
    (chunkStream C s).length = (s.length + C - 1) / C := by
  induction s using chunkStream_induction C hC with
  | hnil =>
      rw [chunkStream_nil]
      have h0 : (C - 1) / C = 0 := Nat.div_eq_of_lt (by omega)
      simpa using h0.symm
  | hcons t h ih =>
      rw [chunkStream_cons C t h hC]
      have ht : 0 < t.length := List.length_pos.mpr h
      by_cases hle : t.length ≤ C
      · have hdrop : t.drop C = [] := by
          rw [List.drop_eq_nil_iff]
          omega
        have h2 : t.length + C - 1 = (t.length - 1) + C := by omega
        rw [hdrop, chunkStream_nil, List.length_cons, List.length_nil, h2,
          Nat.add_div_right _ hC, Nat.div_eq_of_lt (by omega)]
      · push_neg at hle
        rw [List.length_cons, ih, List.length_drop]
        have h1 : t.length - C + C - 1 = t.length - 1 := by omega
        have h2 : t.length + C - 1 = (t.length - 1) + C := by omega
        rw [h1, h2, Nat.add_div_right _ hC]

theorem chunkStream_not_nil_mem (C : Nat) (hC : 0 < C) (s : Bytes) :
    [] ∉ chunkStream C s := by
  induction s using chunkStream_induction C hC with
  | hnil =>
      rw [chunkStream_nil]
      simp
  | hcons t h ih =>
      rw [chunkStream_cons C t h hC]
      intro hmem
      rcases List.mem_cons.mp hmem with heq | hmem2
      · have ht : 0 < t.length := List.length_pos.mpr h
        have h0 : (t.take C).length = 0 := by rw [← heq]; rfl
        rw [List.length_take] at h0
        omega
      · exact ih hmem2

theorem chunkStream_getD (C : Nat) (hC : 0 < C) (s : Bytes) :
    ∀ i, i + 1 < (chunkStream C s).length →
      ((chunkStream C s).getD i []).length = C := by
  induction s using chunkStream_induction C hC with
  | hnil =>
      intro i hi
      rw [chunkStream_nil] at hi
      simp at hi
  | hcons t h ih =>
      intro i hi
      rw [chunkStream_cons C t h hC] at hi ⊢
      cases i with
      | zero =>
          rw [List.length_cons] at hi
          have hrest : chunkStream C (t.drop C) ≠ [] := by
            intro hnil
            rw [hnil] at hi
            simp at hi
          have hdrop : t.drop C ≠ [] := by
            intro hd
            exact hrest (hd ▸ chunkStream_nil C)
          have hlen : C < t.length := by
            by_contra hle
            push_neg at hle
            exact hdrop (List.drop_eq_nil_iff.mpr hle)
          simp [List.length_take]
          omega
      | succ k =>
          rw [List.length_cons] at hi
          simpa using ih k (by omega)

theorem getLastD_of_ne_nil {α : Type} (l : List α) (hl : l ≠ []) (d d' : α) :
    l.getLastD d = l.getLastD d' := by
  cases l with
  | nil => exact absurd rfl hl
  | cons a as => simp [List.getLastD]

theorem chunkStream_getLastD (C : Nat) (hC : 0 < C) (s : Bytes) :
    s ≠ [] →
    ((chunkStream C s).getLastD []).length =
      if s.length % C = 0 then C else s.length % C := by
  induction s using chunkStream_induction C hC with
  | hnil =>
      intro hs
      exact absurd rfl hs
  | hcons t h ih =>
      intro hs
      rw [chunkStream_cons C t h hC]
      have ht : 0 < t.length := List.length_pos.mpr h
      by_cases hle : t.length ≤ C
      · have hdrop : t.drop C = [] := List.drop_eq_nil_iff.mpr hle
        rw [hdrop, chunkStream_nil]
        have hgl : ([t.take C] : List Bytes).getLastD [] = t.take C := rfl
        rw [hgl, List.length_take]
        rcases Nat.lt_or_ge t.length C with hlt | hge
        · have hmod : t.length % C = t.length := Nat.mod_eq_of_lt hlt
          rw [hmod, if_neg (by omega), Nat.min_eq_right (by omega)]
        · have heq : t.length = C := by omega
          rw [heq, Nat.mod_self, if_pos rfl, Nat.min_self]
      · push_neg at hle
        have hdrop : t.drop C ≠ [] := by
          intro hd
          rw [List.drop_eq_nil_iff] at hd
          omega
        have hrest : chunkStream C (t.drop C) ≠ [] :=
          fun hnil => hdrop ((chunkStream_eq_nil_iff C hC _).mp hnil)
        rw [List.getLastD_cons, getLastD_of_ne_nil _ hrest _ [], ih hdrop]
        have hmod : (t.drop C).length % C = t.length % C := by
          rw [List.length_drop]
          have h3 : t.length = (t.length - C) + C := by omega
          conv_rhs => rw [h3]
          rw [Nat.add_mod_right]
        rw [hmod]

/-! ## Claim theorems -/
/-- C4: for every input stream and the fixed chunk size `ChunkSize`, the
upload chunking loop produces exactly `ceil(N / C)` chunks (zero when
`N = 0`), each of length `C` except the last, whose length is `N mod C`,
or exactly `C` when `N` is a nonzero multiple of `C`; no empty trailing
chunk is ever produced. -/
theorem chunking_shape (s : Bytes) :
    (chunkStream ChunkSize s).length = (s.length + ChunkSize - 1) / ChunkSize
    ∧ (s = [] → chunkStream ChunkSize s = [])
    ∧ (∀ i, i + 1 < (chunkStream ChunkSize s).length →
        ((chunkStream ChunkSize s).getD i []).length = ChunkSize)
    ∧ (s ≠ [] →
        ((chunkStream ChunkSize s).getLastD []).length =
          if s.length % ChunkSize = 0 then ChunkSize else s.length % ChunkSize)
    ∧ [] ∉ chunkStream ChunkSize s := by
  have hC : 0 < ChunkSize := by norm_num [ChunkSize]
  refine ⟨chunkStream_length ChunkSize hC s, ?_, chunkStream_getD ChunkSize hC s,
    chunkStream_getLastD ChunkSize hC s, chunkStream_not_nil_mem ChunkSize hC s⟩
  intro h
  subst h
  exact chunkStream_nil ChunkSize

/-- Witness for C4 at the concrete stream `[1, 2, 3]`. -/
theorem chunking_shape_witness :
    (chunkStream ChunkSize [1, 2, 3]).length = 1
    ∧ ((chunkStream ChunkSize [1, 2, 3]).getLastD []).length = 3 := by
  have h := chunking_shape [1, 2, 3]
  refine ⟨?_, ?_⟩
  · rw [h.1]
    decide
  · have h2 := h.2.2.2.1 (by decide)
    rw [h2]
    decide

/-- C7: after `DeleteFile id` the file row and every one of its chunk rows
are gone: `GetFile id` returns the not-found error and `GetChunks id`
returns an empty sequence (the cascade removes the chunk rows). -/
theorem delete_removes_file_and_chunks (db : DB) (id : Nat) :
    (db.deleteFile id).getFile id = none ∧ (db.deleteFile id).getChunks id = [] := by
  constructor
  · rw [DB.getFile, List.find?_eq_none]
    intro f hf
    simp only [DB.deleteFile, List.mem_filter, bne_iff_ne] at hf
    simp [hf.2]
  · have hfil : ((db.deleteFile id).chunks.filter (fun c => c.fileId == id)) = [] := by
      rw [List.filter_eq_nil_iff]
      intro c hc
      simp only [DB.deleteFile, List.mem_filter, bne_iff_ne] at hc
      simp [hc.2]
    rw [DB.getChunks, hfil]
    rfl

/-- C8: with a fixed 32-byte key, decryption inverts encryption, and
decryption of any ciphertext with one byte flipped (any position, any
different byte value) fails, returning no data at all. -/
theorem cipher_roundtrip_and_flip (nonce p key : Bytes)
    (hn : nonce.length = 12) (hkey : key.length = 32)
    (hkB : isBytes key) (hnB : isBytes nonce) (hpB : isBytes p) :
    Decrypt (Encrypt nonce p key) key = some p
    ∧ ∀ j v, j < (Encrypt nonce p key).length → v < 256 →
        v ≠ (Encrypt nonce p key).getD j 0 →
        Decrypt ((Encrypt nonce p key).set j v) key = none :=
  ⟨Decrypt_Encrypt nonce p key hn,
   fun j v hj hv hne => Decrypt_flip nonce p key hn hkB hnB hpB j v hj hv hne⟩

set_option maxRecDepth 8000 in
/-- Witness for C8: concrete round trip and a concrete single-byte flip. -/
theorem cipher_roundtrip_and_flip_witness :
    Decrypt (Encrypt (List.replicate 12 0) [7, 200] (List.replicate 32 1))
        (List.replicate 32 1) = some [7, 200]
    ∧ Decrypt ((Encrypt (List.replicate 12 0) [7, 200] (List.replicate 32 1)).set 0 5)
        (List.replicate 32 1) = none := by
  have h := cipher_roundtrip_and_flip (List.replicate 12 0) [7, 200]
    (List.replicate 32 1) (by decide) (by decide) (by decide) (by decide) (by decide)
  exact ⟨h.1, h.2 0 5 (by decide) (by decide) (by decide)⟩

/-- C9 counterexample: a Delete on an id with no LogicalFile (empty store,
id 1) is answered 200 OK, not a not-found condition: `GetChunks` returns an
empty list with a nil error for an unknown id, so the handler's 404 branch
never fires and the delete proceeds to report success. -/
theorem delete_unknown_id_reports_ok :
    (handleDeleteW DB.empty Remote.empty 1).status = HStatus.okStatus
    ∧ (handleDeleteW DB.empty Remote.empty 1).status ≠ HStatus.notFound := by
  exact ⟨rfl, by decide⟩

/-- C9 (amended): a Get (download) on an unknown file id is answered with
a client-visible 404 not-found; a Delete on an unknown file id, however,
is answered 200 OK in a fault-free store. -/
theorem unknown_id_get_notfound_delete_ok (key : Bytes) (db : DB) (rem : Remote)
    (fetch : Nat → Option Bytes) (id : Nat) (h : db.getFile id = none) :
    handleDownloadW key db fetch id = DlResult.notFound
    ∧ (handleDeleteW db rem id).status = HStatus.okStatus := by
  constructor
  · rw [handleDownloadW, h]
  · rfl

/-- Witness for the amended C9 at the empty store and id 1. -/
theorem unknown_id_get_notfound_delete_ok_witness :
    handleDownloadW [] DB.empty (fun _ => none) 1 = DlResult.notFound
    ∧ (handleDeleteW DB.empty Remote.empty 1).status = HStatus.okStatus :=
  unknown_id_get_notfound_delete_ok [] DB.empty Remote.empty (fun _ => none) 1 (by decide)

/-- C3 (code bug): when the metadata write fails — here because the file
name "a" already exists, violating the UNIQUE constraint — the web upload
handler does not abort with an internal error: it skips the chunk inserts
but still falls through to `w.WriteHeader(http.StatusOK)`, so the caller
receives a success status although no metadata was saved (the store is
unchanged). -/
theorem upload_savefile_failure_reports_ok :
    (handleUploadW (fun _ => List.replicate 12 0) (List.replicate 32 1) (fun _ => 0)
        dbDup Remote.empty "a" [9]).status = HStatus.okStatus
    ∧ (handleUploadW (fun _ => List.replicate 12 0) (List.replicate 32 1) (fun _ => 0)
        dbDup Remote.empty "a" [9]).db = dbDup := by
  exact ⟨by decide, by decide⟩

/-- C2 counterexample: during a 2-chunk upload into an empty store the
save phase is not atomic: the state right after the `SaveFile` insert (the
first state of the save-phase trace, exposed because each INSERT
autocommits) contains the LogicalFile (id 1) with an empty ChunkRecord
set, although the upload collected two message ids. -/
theorem partial_chunkset_state_exposed :
    ∃ st ∈ uploadSaveTrace DB.empty "f" 2 0 [10, 11],
      (st.getFile 1).isSome = true ∧ st.getChunks 1 = [] := by
  refine ⟨⟨[⟨1, "f", 2, 0⟩], [], 2, 1⟩, by decide, by decide, by decide⟩

theorem downloadSpec_cons_skip (fetch : Nat → Option Bytes) (key : Bytes)
    (c : ChunkRow) (cs : List ChunkRow) (h : fetch c.messageId = none) :
    downloadSpec fetch key (c :: cs) = downloadSpec fetch key cs := by
  simp [downloadSpec, List.takeWhile_cons, chunkDecryptFails, h, List.filterMap_cons]

theorem downloadSpec_cons_abort (fetch : Nat → Option Bytes) (key : Bytes)
    (c : ChunkRow) (cs : List ChunkRow) (blob : Bytes)
    (h : fetch c.messageId = some blob) (hd : Decrypt blob key = none) :
    downloadSpec fetch key (c :: cs) = [] := by
  simp [downloadSpec, List.takeWhile_cons, chunkDecryptFails, h, hd]

theorem downloadSpec_cons_ok (fetch : Nat → Option Bytes) (key : Bytes)
    (c : ChunkRow) (cs : List ChunkRow) (blob pt : Bytes)
    (h : fetch c.messageId = some blob) (hd : Decrypt blob key = some pt) :
    downloadSpec fetch key (c :: cs) = pt ++ downloadSpec fetch key cs := by
  simp [downloadSpec, List.takeWhile_cons, chunkDecryptFails, h, hd,
    List.filterMap_cons]

theorem downloadLoop_eq_spec (fetch : Nat → Option Bytes) (key : Bytes) :
    ∀ cs : List ChunkRow, downloadLoop fetch key cs = downloadSpec fetch key cs := by
  intro cs
  induction cs with
  | nil => rfl
  | cons c cs ih =>
      cases hf : fetch c.messageId with
      | none =>
          rw [downloadSpec_cons_skip fetch key c cs hf, ← ih]
          simp only [downloadLoop, hf]
      | some blob =>
          cases hd : Decrypt blob key with
          | none =>
              rw [downloadSpec_cons_abort fetch key c cs blob hf hd]
              simp only [downloadLoop, hf, hd]
          | some pt =>
              rw [downloadSpec_cons_ok fetch key c cs blob pt hf hd, ← ih]
              simp only [downloadLoop, hf, hd]

/-- C5: during Get, a chunk whose fetch fails or returns no content is
skipped with no error raised to the caller, and the remaining chunks are
still emitted in order, while the first chunk that fetches but fails to
decrypt terminates the operation with no further bytes: the download loop
equals the skip/abort policy stated by the spec, and whenever the file
exists the handler replies with a normal streamed body. -/
theorem download_skip_and_abort (fetch : Nat → Option Bytes) (key : Bytes)
    (cs : List ChunkRow) :
    downloadLoop fetch key cs = downloadSpec fetch key cs
    ∧ ∀ (db : DB) (id : Nat) (f : FileRow), db.getFile id = some f →
        handleDownloadW key db fetch id
          = DlResult.ok (downloadSpec fetch key (db.getChunks id)) := by
  refine ⟨downloadLoop_eq_spec fetch key cs, ?_⟩
  intro db id f hf
  rw [handleDownloadW, hf, downloadLoop_eq_spec fetch key]

/-- Witness for C5's handler-level conjunct at a one-file store. -/
theorem download_skip_and_abort_witness :
    handleDownloadW [] dbOne (fun _ => none) 1
      = DlResult.ok (downloadSpec (fun _ => none) [] (dbOne.getChunks 1)) :=
  (download_skip_and_abort (fun _ => none) [] []).2 dbOne 1 ⟨1, "x", 0, 0⟩ (by decide)

/-- C10: an upload through the bot front-end encrypts the entire file as a
single blob and sends exactly one message regardless of the data's size
(the chunker is never applied on this path); exactly one ChunkRecord with
partNum 1 is created for the new file, and the recorded size is the
attachment's reported size, not the number of bytes actually read. -/
theorem bot_upload_single_chunk (nonce key : Bytes) (hashFn : Bytes → Nat)
    (db : DB) (rem : Remote) (filename : String) (data : Bytes) (attachSize : Nat)
    (hname : ∀ f ∈ db.files, f.name ≠ filename) (hwf : DB.WF db) :
    (botHandleUpload nonce key hashFn db rem filename data attachSize).remote.msgs
      = rem.msgs ++ [(rem.nextMsgId, Encrypt nonce data key)]
    ∧ (botHandleUpload nonce key hashFn db rem filename data attachSize).success = true
    ∧ ((botHandleUpload nonce key hashFn db rem filename data attachSize).db.chunks.filter
        (fun c => c.fileId ==
          (botHandleUpload nonce key hashFn db rem filename data attachSize).fileId)).map
        (fun c => (c.partNum, c.messageId))
      = [(1, rem.nextMsgId)]
    ∧ ((botHandleUpload nonce key hashFn db rem filename data attachSize).db.getFile
        ((botHandleUpload nonce key hashFn db rem filename data attachSize).fileId)).map
        (fun f => f.size) = some attachSize := by
  have hany : db.files.any (fun f => f.name == filename) = false :=
    List.any_eq_false.mpr (fun f hf => by simp [hname f hf])
  have hsave : db.saveFile filename attachSize (hashFn data)
      = some (db.nextFileId,
        { db with
            files := db.files ++ [⟨db.nextFileId, filename, attachSize, hashFn data⟩]
            nextFileId := db.nextFileId + 1 }) := by
    rw [DB.saveFile]
    simp [hany]
  simp only [botHandleUpload, hsave, Remote.send, DB.saveChunk]
  refine ⟨trivial, trivial, ?_, ?_⟩
  · rw [List.filter_append]
    have hold : db.chunks.filter (fun c => c.fileId == db.nextFileId) = [] := by
      rw [List.filter_eq_nil_iff]
      intro c hc
      have := hwf.2 c hc
      simp
      omega
    rw [hold]
    simp
  · rw [DB.getFile, List.find?_append]
    have holdf : db.files.find? (fun f => f.id == db.nextFileId) = none := by
      rw [List.find?_eq_none]
      intro f hf
      have := hwf.1 f hf
      simp
      omega
    rw [holdf]
    simp

/-- Witness for C10: a 2-byte read whose attachment reports size 99 is
stored as one chunk record with partNum 1 and recorded size 99. -/
theorem bot_upload_single_chunk_witness :
    (botHandleUpload [] [] (fun _ => 0) DB.empty Remote.empty "b" [1, 2] 99).success = true
    ∧ ((botHandleUpload [] [] (fun _ => 0) DB.empty Remote.empty "b" [1, 2] 99).db.getFile
        ((botHandleUpload [] [] (fun _ => 0) DB.empty Remote.empty "b" [1, 2] 99).fileId)).map
        (fun f => f.size) = some 99 := by
  have h := bot_upload_single_chunk [] [] (fun _ => 0) DB.empty Remote.empty "b" [1, 2] 99
    (by decide) (by decide)
  exact ⟨h.2.1, h.2.2.2⟩

theorem saveChunksAll_spec (fid : Nat) :
    ∀ (mids : List Nat) (db : DB) (k : Nat),
      (saveChunksAll db fid mids k).files = db.files
      ∧ (saveChunksAll db fid mids k).nextFileId = db.nextFileId
      ∧ (saveChunksAll db fid mids k).chunks
          = db.chunks ++ mkRows fid db.nextChunkId mids k := by
  intro mids
  induction mids with
  | nil =>
      intro db k
      exact ⟨rfl, rfl, by simp [saveChunksAll, mkRows]⟩
  | cons m ms ih =>
      intro db k
      obtain ⟨h1, h2, h3⟩ := ih (db.saveChunk fid m k) (k + 1)
      simp only [saveChunksAll]
      refine ⟨h1, h2, ?_⟩
      rw [h3]
      simp only [DB.saveChunk, mkRows]
      rw [List.append_assoc]
      rfl

theorem mkRows_length (fid : Nat) :
    ∀ (mids : List Nat) (cid k : Nat), (mkRows fid cid mids k).length = mids.length := by
  intro mids
  induction mids with
  | nil => intro cid k; rfl
  | cons m ms ih => intro cid k; simp [mkRows, ih]

theorem mkRows_getD (fid : Nat) :
    ∀ (mids : List Nat) (cid k j : Nat), j < mids.length →
      (mkRows fid cid mids k).getD j ⟨0, 0, 0, 0⟩
        = ⟨cid + j, fid, mids.getD j 0, k + j⟩ := by
  intro mids
  induction mids with
  | nil => intro cid k j hj; simp at hj
  | cons m ms ih =>
      intro cid k j hj
      cases j with
      | zero => simp [mkRows]
      | succ t =>
          simp only [mkRows, List.getD_cons_succ]
          rw [ih (cid + 1) (k + 1) t (by simpa using hj)]
          have e1 : cid + 1 + t = cid + (t + 1) := by omega
          have e2 : k + 1 + t = k + (t + 1) := by omega
          rw [e1, e2]

theorem mkRows_filter_self (fid : Nat) :
    ∀ (mids : List Nat) (cid k : Nat),
      (mkRows fid cid mids k).filter (fun c => c.fileId == fid)
        = mkRows fid cid mids k := by
  intro mids
  induction mids with
  | nil => intro cid k; rfl
  | cons m ms ih =>
      intro cid k
      simp only [mkRows, List.filter_cons]
      rw [if_pos (by simp)]
      rw [ih]

theorem mkRows_partNum_ge (fid : Nat) :
    ∀ (mids : List Nat) (cid k : Nat),
      ∀ c ∈ mkRows fid cid mids k, k ≤ c.partNum := by
  intro mids
  induction mids with
  | nil => intro cid k c hc; simp [mkRows] at hc
  | cons m ms ih =>
      intro cid k c hc
      simp only [mkRows, List.mem_cons] at hc
      rcases hc with rfl | hc
      · exact le_rfl
      · have := ih (cid + 1) (k + 1) c hc
        omega

theorem mkRows_pairwise (fid : Nat) :
    ∀ (mids : List Nat) (cid k : Nat),
      (mkRows fid cid mids k).Pairwise (fun a b => a.partNum ≤ b.partNum) := by
  intro mids
  induction mids with
  | nil => intro cid k; exact List.Pairwise.nil
  | cons m ms ih =>
      intro cid k
      refine List.Pairwise.cons ?_ (ih (cid + 1) (k + 1))
      intro c hc
      have := mkRows_partNum_ge fid ms (cid + 1) (k + 1) c hc
      show k ≤ c.partNum
      omega

theorem mkRows_map_partNum (fid : Nat) :
    ∀ (mids : List Nat) (cid k : Nat),
      (mkRows fid cid mids k).map (fun c => c.partNum) = List.range' k mids.length := by
  intro mids
  induction mids with
  | nil => intro cid k; rfl
  | cons m ms ih =>
      intro cid k
      simp only [mkRows, List.map_cons, List.length_cons, List.range'_succ]
      rw [ih]

theorem sortByPart_of_pairwise :
    ∀ (l : List ChunkRow), l.Pairwise (fun a b => a.partNum ≤ b.partNum) →
      sortByPart l = l := by
  intro l
  induction l with
  | nil => intro _; rfl
  | cons c cs ih =>
      intro hp
      rw [sortByPart, ih (List.Pairwise.sublist (List.sublist_cons_self c cs) hp)]
      cases cs with
      | nil => rfl
      | cons d ds =>
          rw [insertByPart, if_pos]
          exact List.rel_of_pairwise_cons hp (by simp)

theorem sendAll_ids (nonces : Nat → Bytes) (key : Bytes) :
    ∀ (bs : List Bytes) (i : Nat) (rem : Remote),
      (sendAll nonces key i rem bs).2 = List.range' rem.nextMsgId bs.length := by
  intro bs
  induction bs with
  | nil => intro i rem; rfl
  | cons b bs ih =>
      intro i rem
      simp only [sendAll, List.length_cons, List.range'_succ]
      rw [ih]
      rfl

theorem sendAll_keeps (nonces : Nat → Bytes) (key : Bytes) :
    ∀ (bs : List Bytes) (i : Nat) (rem : Remote) (mid : Nat), mid < rem.nextMsgId →
      Remote.fetch (sendAll nonces key i rem bs).1 mid = Remote.fetch rem mid := by
  intro bs
  induction bs with
  | nil => intro i rem mid _; rfl
  | cons b bs ih =>
      intro i rem mid hmid
      simp only [sendAll]
      rw [ih (i + 1) _ mid (by simp [Remote.send]; omega)]
      rw [Remote.fetch, Remote.fetch]
      simp only [Remote.send]
      have hne : (rem.nextMsgId == mid) = false := by
        simp
        omega
      have hnew : List.find? (fun m => m.1 == mid)
          [(rem.nextMsgId, Encrypt (nonces i) b key)] = none := by
        simp only [List.find?_cons, hne, List.find?_nil]
      rw [List.find?_append, hnew, Option.or_none]

theorem sendAll_fetch (nonces : Nat → Bytes) (key : Bytes) :
    ∀ (bs : List Bytes) (i : Nat) (rem : Remote),
      (∀ m ∈ rem.msgs, m.1 < rem.nextMsgId) →
      ∀ j, j < bs.length →
        Remote.fetch (sendAll nonces key i rem bs).1 (rem.nextMsgId + j)
          = some (Encrypt (nonces (i + j)) (bs.getD j []) key) := by
  intro bs
  induction bs with
  | nil => intro i rem _ j hj; simp at hj
  | cons b bs ih =>
      intro i rem hwfr j hj
      simp only [sendAll]
      cases j with
      | zero =>
          simp only [Nat.add_zero, List.getD_cons_zero]
          rw [sendAll_keeps nonces key bs (i + 1) _ rem.nextMsgId
            (by simp [Remote.send])]
          rw [Remote.fetch]
          simp only [Remote.send]
          have hold : List.find? (fun m => m.1 == rem.nextMsgId) rem.msgs = none := by
            rw [List.find?_eq_none]
            intro m hm
            have := hwfr m hm
            simp
            omega
          rw [List.find?_append, hold, Option.none_or]
          simp
      | succ t =>
          have harith : rem.nextMsgId + (t + 1)
              = (Remote.send rem (Encrypt (nonces i) b key)).1.nextMsgId + t := by
            simp [Remote.send]
            omega
          rw [harith, List.getD_cons_succ]
          rw [ih (i + 1) _ ?hwf t (by simpa using hj)]
          · have e1 : i + 1 + t = i + (t + 1) := by omega
            rw [e1]
          case hwf =>
            intro m hm
            simp only [Remote.send, List.mem_append, List.mem_cons] at hm
            rcases hm with hm | hm
            · have := hwfr m hm
              simp [Remote.send]
              omega
            · simp only [List.not_mem_nil, or_false] at hm
              subst hm
              simp [Remote.send]

theorem downloadLoop_all_ok (fetch : Nat → Option Bytes) (key : Bytes) :
    ∀ (rows : List ChunkRow) (ps : List Bytes),
      rows.length = ps.length →
      (∀ j, j < rows.length →
        ∃ blob, fetch ((rows.getD j ⟨0, 0, 0, 0⟩).messageId) = some blob ∧
          Decrypt blob key = some (ps.getD j [])) →
      downloadLoop fetch key rows = ps.flatten := by
  intro rows
  induction rows with
  | nil =>
      intro ps hlen _
      cases ps with
      | nil => rfl
      | cons p pts => simp at hlen
  | cons r rs ih =>
      intro ps hlen hp
      cases ps with
      | nil => simp at hlen
      | cons p pts =>
          obtain ⟨blob, hb, hd⟩ := hp 0 (by simp)
          rw [List.getD_cons_zero] at hb
          rw [List.getD_cons_zero] at hd
          simp only [downloadLoop, hb, hd, List.flatten_cons]
          congr 1
          apply ih pts (by simpa using hlen)
          intro j hj
          have h := hp (j + 1) (by simpa using Nat.succ_lt_succ hj)
          rw [List.getD_cons_succ] at h
          rw [List.getD_cons_succ] at h
          exact h

theorem handleDownloadW_found (key : Bytes) (db : DB) (fetch : Nat → Option Bytes)
    (id : Nat) (f : FileRow) (h : db.getFile id = some f) :
    handleDownloadW key db fetch id
      = DlResult.ok (downloadLoop fetch key (db.getChunks id)) := by
  rw [handleDownloadW, h]

theorem handleUploadW_spec (nonces : Nat → Bytes) (key : Bytes) (hashFn : Bytes → Nat)
    (db : DB) (rem : Remote) (filename : String) (s : Bytes)
    (hs : s ≠ []) (hname : ∀ f ∈ db.files, f.name ≠ filename) (hwf : DB.WF db) :
    (handleUploadW nonces key hashFn db rem filename s).status = HStatus.okStatus
    ∧ (handleUploadW nonces key hashFn db rem filename s).fileId = db.nextFileId
    ∧ (handleUploadW nonces key hashFn db rem filename s).remote
        = (sendAll nonces key 0 rem (chunkStream ChunkSize s)).1
    ∧ (handleUploadW nonces key hashFn db rem filename s).db.getFile db.nextFileId
        = some ⟨db.nextFileId, filename, s.length, hashFn s⟩
    ∧ (handleUploadW nonces key hashFn db rem filename s).db.getChunks db.nextFileId
        = mkRows db.nextFileId db.nextChunkId
            (List.range' rem.nextMsgId (chunkStream ChunkSize s).length) 1 := by
  have hC : 0 < ChunkSize := by norm_num [ChunkSize]
  have hcs : chunkStream ChunkSize s ≠ [] := by
    rw [Ne, chunkStream_eq_nil_iff ChunkSize hC]
    exact hs
  have hids : (sendAll nonces key 0 rem (chunkStream ChunkSize s)).2
      = List.range' rem.nextMsgId (chunkStream ChunkSize s).length :=
    sendAll_ids nonces key _ 0 rem
  have hmidsne : ¬ (sendAll nonces key 0 rem (chunkStream ChunkSize s)).2 = [] := by
    rw [hids]
    have hpos : 0 < (chunkStream ChunkSize s).length := List.length_pos.mpr hcs
    obtain ⟨n, hn⟩ : ∃ n, (chunkStream ChunkSize s).length = n + 1 :=
      ⟨(chunkStream ChunkSize s).length - 1, by omega⟩
    rw [hn, List.range'_succ]
    simp
  have hany : db.files.any (fun f => f.name == filename) = false :=
    List.any_eq_false.mpr (fun f hf => by simp [hname f hf])
  have hsave : db.saveFile filename s.length (hashFn s)
      = some (db.nextFileId,
        { db with
            files := db.files ++ [⟨db.nextFileId, filename, s.length, hashFn s⟩]
            nextFileId := db.nextFileId + 1 }) := by
    rw [DB.saveFile]
    simp [hany]
  simp only [handleUploadW, hsave, if_neg hmidsne]
  obtain ⟨hf1, hf2, hf3⟩ := saveChunksAll_spec db.nextFileId
    (sendAll nonces key 0 rem (chunkStream ChunkSize s)).2
    { db with
        files := db.files ++ [⟨db.nextFileId, filename, s.length, hashFn s⟩]
        nextFileId := db.nextFileId + 1 } 1
  refine ⟨trivial, trivial, trivial, ?_, ?_⟩
  · rw [DB.getFile, hf1]
    have holdf : db.files.find? (fun f => f.id == db.nextFileId) = none := by
      rw [List.find?_eq_none]
      intro f hf
      have := hwf.1 f hf
      simp
      omega
    rw [List.find?_append, holdf, Option.none_or]
    simp
  · rw [DB.getChunks, hf3]
    rw [List.filter_append]
    have hold : db.chunks.filter (fun c => c.fileId == db.nextFileId) = [] := by
      rw [List.filter_eq_nil_iff]
      intro c hc
      have := hwf.2 c hc
      simp
      omega
    rw [hold, List.nil_append, mkRows_filter_self, hids,
      sortByPart_of_pairwise _ (mkRows_pairwise _ _ _ _)]

/-- C1 counterexample: for the empty byte stream, Put does not return a
file identity at all: the upload loop sends no chunk, `messageIDs` stays
empty and the request is rejected as "Payload empty" (HTTP 400) before any
metadata is written, so no Get of "the returned file identity" exists. -/
theorem put_empty_stream_no_identity :
    (handleUploadW (fun _ => List.replicate 12 0) (List.replicate 32 1) (fun _ => 0)
        DB.empty Remote.empty "f" []).status = HStatus.badRequest
    ∧ (handleUploadW (fun _ => List.replicate 12 0) (List.replicate 32 1) (fun _ => 0)
        DB.empty Remote.empty "f" []).status ≠ HStatus.okStatus :=
  ⟨rfl, by decide⟩

/-- C1 (amended): for every byte stream of nonzero length — in particular
lengths 1, C-1, C, C+1 and 5C+3 — a Put followed immediately by a Get of
the returned file identity reproduces the original byte stream exactly;
the empty stream is instead rejected as a bad request and yields no file
identity. -/
theorem put_then_get (nonces : Nat → Bytes) (key : Bytes) (hashFn : Bytes → Nat)
    (db : DB) (rem : Remote) (filename : String) (s : Bytes)
    (hs : s ≠ []) (hnonce : ∀ i, (nonces i).length = 12)
    (hname : ∀ f ∈ db.files, f.name ≠ filename) (hwf : DB.WF db)
    (hrem : ∀ m ∈ rem.msgs, m.1 < rem.nextMsgId) :
    (handleUploadW nonces key hashFn db rem filename s).status = HStatus.okStatus
    ∧ handleDownloadW key (handleUploadW nonces key hashFn db rem filename s).db
        (Remote.fetch (handleUploadW nonces key hashFn db rem filename s).remote)
        (handleUploadW nonces key hashFn db rem filename s).fileId
      = DlResult.ok s := by
  obtain ⟨h1, h2, h3, h4, h5⟩ :=
    handleUploadW_spec nonces key hashFn db rem filename s hs hname hwf
  refine ⟨h1, ?_⟩
  rw [h2, h3, handleDownloadW_found key _ _ _ _ h4, h5]
  have hC : 0 < ChunkSize := by norm_num [ChunkSize]
  have hflat : (chunkStream ChunkSize s).flatten = s :=
    chunkStream_flatten ChunkSize hC s
  rw [show DlResult.ok s
      = DlResult.ok ((chunkStream ChunkSize s).flatten) from by rw [hflat]]
  congr 1
  apply downloadLoop_all_ok
  · rw [mkRows_length, List.length_range']
  · intro j hj
    rw [mkRows_length, List.length_range'] at hj
    rw [mkRows_getD _ _ _ _ j (by rw [List.length_range']; exact hj)]
    have hgd : (List.range' rem.nextMsgId (chunkStream ChunkSize s).length).getD j 0
        = rem.nextMsgId + j := by
      rw [List.getD_eq_getElem _ _ (by rw [List.length_range']; exact hj),
        List.getElem_range']
      simp
    refine ⟨Encrypt (nonces j) ((chunkStream ChunkSize s).getD j []) key, ?_, ?_⟩
    · show Remote.fetch _ ((List.range' rem.nextMsgId (chunkStream ChunkSize s).length).getD j 0)
        = _
      rw [hgd]
      have hfetch := sendAll_fetch nonces key (chunkStream ChunkSize s) 0 rem hrem j hj
      rw [Nat.zero_add] at hfetch
      exact hfetch
    · exact Decrypt_Encrypt _ _ _ (hnonce j)

/-- Witness for the amended C1: the one-byte stream `[42]` round-trips
through Put then Get on a fresh store and backend. -/
theorem put_then_get_witness :
    (handleUploadW (fun _ => List.replicate 12 0) (List.replicate 32 1) (fun _ => 0)
        DB.empty Remote.empty "f" [42]).status = HStatus.okStatus
    ∧ handleDownloadW (List.replicate 32 1)
        (handleUploadW (fun _ => List.replicate 12 0) (List.replicate 32 1) (fun _ => 0)
          DB.empty Remote.empty "f" [42]).db
        (Remote.fetch (handleUploadW (fun _ => List.replicate 12 0) (List.replicate 32 1)
          (fun _ => 0) DB.empty Remote.empty "f" [42]).remote)
        (handleUploadW (fun _ => List.replicate 12 0) (List.replicate 32 1) (fun _ => 0)
          DB.empty Remote.empty "f" [42]).fileId
      = DlResult.ok [42] :=
  put_then_get (fun _ => List.replicate 12 0) (List.replicate 32 1) (fun _ => 0)
    DB.empty Remote.empty "f" [42] (by decide) (fun _ => rfl) (by decide) (by decide)
    (by decide)

/-- C2 (amended): the chunk records of a completed fault-free Put are
written only after all remote uploads succeeded, and their partNum values
form the contiguous ascending sequence 1..n with no gaps or duplicates;
the set is however not created atomically as a unit (see the exposed
intermediate state of the save-phase trace). -/
theorem upload_chunk_records_contiguous (nonces : Nat → Bytes) (key : Bytes)
    (hashFn : Bytes → Nat) (db : DB) (rem : Remote) (filename : String) (s : Bytes)
    (hs : s ≠ []) (hname : ∀ f ∈ db.files, f.name ≠ filename) (hwf : DB.WF db) :
    ((handleUploadW nonces key hashFn db rem filename s).db.getChunks
        (handleUploadW nonces key hashFn db rem filename s).fileId).map
      (fun c => c.partNum)
      = List.range' 1 (chunkStream ChunkSize s).length := by
  obtain ⟨h1, h2, h3, h4, h5⟩ :=
    handleUploadW_spec nonces key hashFn db rem filename s hs hname hwf
  rw [h2, h5, mkRows_map_partNum, List.length_range']

/-- Witness for the amended C2 at the one-byte stream `[42]`. -/
theorem upload_chunk_records_contiguous_witness :
    ((handleUploadW (fun _ => List.replicate 12 0) (List.replicate 32 1) (fun _ => 0)
        DB.empty Remote.empty "g" [42]).db.getChunks
        (handleUploadW (fun _ => List.replicate 12 0) (List.replicate 32 1) (fun _ => 0)
          DB.empty Remote.empty "g" [42]).fileId).map (fun c => c.partNum)
      = List.range' 1 (chunkStream ChunkSize [42]).length :=
  upload_chunk_records_contiguous (fun _ => List.replicate 12 0) (List.replicate 32 1)
    (fun _ => 0) DB.empty Remote.empty "g" [42] (by decide) (by decide) (by decide)

theorem getD_mem_tasks (l : List TaskSt) (i : Nat) (hi : i < l.length) :
    l.getD i TaskSt.idle ∈ l := by
  rw [List.getD_eq_getElem _ _ hi]
  exact List.getElem_mem hi

theorem getD_set_other (l : List TaskSt) (i j : Nat) (v : TaskSt) (hne : i ≠ j) :
    (l.set i v).getD j TaskSt.idle = l.getD j TaskSt.idle := by
  rw [List.getD_eq_getElem?_getD, List.getElem?_set_ne hne, ← List.getD_eq_getElem?_getD]

theorem count_set_inFlight (l : List TaskSt) :
    ∀ (i : Nat) (v : TaskSt), i < l.length →
      (l.set i v).count TaskSt.inFlight
        = l.count TaskSt.inFlight
          - (if l.getD i TaskSt.idle = TaskSt.inFlight then 1 else 0)
          + (if v = TaskSt.inFlight then 1 else 0) := by
  induction l with
  | nil => intro i v hi; simp at hi
  | cons a as ih =>
      intro i v hi
      cases i with
      | zero =>
          simp only [List.set_cons_zero, List.getD_cons_zero,
            List.count_cons TaskSt.inFlight v, List.count_cons TaskSt.inFlight a]
          by_cases ha : a = TaskSt.inFlight <;> by_cases hv : v = TaskSt.inFlight <;>
            simp [ha, hv] <;> omega
      | succ k =>
          have hk : k < as.length := by simpa using hi
          have hge : (if as.getD k TaskSt.idle = TaskSt.inFlight then 1 else 0)
              ≤ as.count TaskSt.inFlight := by
            by_cases h : as.getD k TaskSt.idle = TaskSt.inFlight
            · rw [if_pos h]
              exact List.count_pos_iff.mpr (h ▸ getD_mem_tasks as k hk)
            · rw [if_neg h]
              exact Nat.zero_le _
          simp only [List.set_cons_succ, List.getD_cons_succ,
            List.count_cons TaskSt.inFlight a]
          rw [ih k v hk]
          rw [List.getD_eq_getElem?_getD] at hge
          by_cases ha : a = TaskSt.inFlight <;> simp [ha] <;> omega

/-- C6: in every state reachable in the parallel wipe phase of
handleDelete, (a) at most 8 remote delete calls are in flight at once (the
semaphore bound), (b) the metadata deletion has been issued only if every
remote delete attempt has returned — regardless of how many failed, since
a task finishes whether or not its delete call succeeded, and (c) no step
re-issues a finished task's delete call (failures are not retried, and a
finished task never blocks another task's step). -/
theorem wipe_bounded_and_barrier (n : Nat) (s : WipeState) (hr : WipeReachable n s) :
    inFlightCount s ≤ 8
    ∧ (s.metaDeleted = true → ∀ t ∈ s.tasks, t = TaskSt.finished)
    ∧ (∀ u : WipeState, WipeStep s u → ∀ j,
        s.tasks.getD j TaskSt.idle = TaskSt.finished →
        u.tasks.getD j TaskSt.idle = TaskSt.finished) := by
  have hkeep : ∀ v : WipeState, ∀ u : WipeState, WipeStep v u → ∀ j,
      v.tasks.getD j TaskSt.idle = TaskSt.finished →
      u.tasks.getD j TaskSt.idle = TaskSt.finished := by
    intro v u hvu j hj
    cases hvu with
    | spawn h hidle =>
        have hne : v.spawned ≠ j := by
          intro heq
          rw [heq, hj] at hidle
          exact absurd hidle (by decide)
        simpa using (getD_set_other v.tasks v.spawned j TaskSt.started hne).trans hj
    | acquire i h hst hsem =>
        have hne : i ≠ j := by
          intro heq
          rw [heq, hj] at hst
          exact absurd hst (by decide)
        simpa using (getD_set_other v.tasks i j TaskSt.inFlight hne).trans hj
    | finish i h hst =>
        have hne : i ≠ j := by
          intro heq
          rw [heq, hj] at hst
          exact absurd hst (by decide)
        simpa using (getD_set_other v.tasks i j TaskSt.finished hne).trans hj
    | metaDelete hall hdone => simpa using hj
  have hmain : inFlightCount s ≤ 8
      ∧ (s.metaDeleted = true → ∀ t ∈ s.tasks, t = TaskSt.finished) := by
    induction hr with
    | init =>
        constructor
        · show (List.replicate n TaskSt.idle).count TaskSt.inFlight ≤ 8
          rw [List.count_replicate]
          simp
        · intro hmd
          exact absurd hmd (by simp [wipeInit])
    | @step v u hr' hvu ih =>
        obtain ⟨ih1, ih2⟩ := ih
        cases hvu with
        | spawn h hidle =>
            constructor
            · show (v.tasks.set v.spawned TaskSt.started).count TaskSt.inFlight ≤ 8
              rw [count_set_inFlight v.tasks v.spawned TaskSt.started h, hidle]
              rw [inFlightCount] at ih1
              simp only [if_neg (by decide : ¬ TaskSt.idle = TaskSt.inFlight),
                if_neg (by decide : ¬ TaskSt.started = TaskSt.inFlight)]
              omega
            · intro hmd
              have hall := ih2 hmd
              have hmem := getD_mem_tasks v.tasks v.spawned h
              rw [hidle] at hmem
              exact absurd (hall _ hmem) (by decide)
        | acquire i h hst2 hsem =>
            constructor
            · show (v.tasks.set i TaskSt.inFlight).count TaskSt.inFlight ≤ 8
              rw [count_set_inFlight v.tasks i TaskSt.inFlight h, hst2]
              have hlt := hsem
              rw [inFlightCount] at hlt
              simp only [if_neg (by decide : ¬ TaskSt.started = TaskSt.inFlight)]
              simp only [if_true]
              omega
            · intro hmd
              have hall := ih2 hmd
              have hmem := getD_mem_tasks v.tasks i h
              rw [hst2] at hmem
              exact absurd (hall _ hmem) (by decide)
        | finish i h hst2 =>
            constructor
            · show (v.tasks.set i TaskSt.finished).count TaskSt.inFlight ≤ 8
              rw [count_set_inFlight v.tasks i TaskSt.finished h, hst2]
              rw [inFlightCount] at ih1
              simp only [if_neg (by decide : ¬ TaskSt.finished = TaskSt.inFlight)]
              simp only [if_true]
              omega
            · intro hmd
              have hall := ih2 hmd
              have hmem := getD_mem_tasks v.tasks i h
              rw [hst2] at hmem
              exact absurd (hall _ hmem) (by decide)
        | metaDelete hall hdone =>
            exact ⟨ih1, fun _ => hdone⟩
  exact ⟨hmain.1, hmain.2, hkeep s⟩

/-- Witness for C6 at the initial state of a 17-chunk wipe. -/
theorem wipe_bounded_and_barrier_witness :
    inFlightCount (wipeInit 17) ≤ 8 :=
  (wipe_bounded_and_barrier 17 (wipeInit 17) WipeReachable.init).1
